import Mathlib

/-!
Verification of the SSI Merkle identity system.

We shallowly embed the core of the repository: the Merkle tree primitive
(`merkle_tree.py`), the identity commitment/disclosure engine
(`zk_merkle_identity.py`) and the registry with its composition verifier
(`identity_registry.py`).

Python byte strings are modelled as `List Nat` whose members are below 256;
`hashlib.sha256` is an abstract parameter `H : List Nat → List Nat`
(theorems hold for every hash function, and witnesses instantiate it with a
small executable one).  Python exceptions are modelled with `Except PyErr`.
-/

/-- A Python `bytes` value: every element is an actual byte. -/
def AllBytes (l : List Nat) : Prop := ∀ b ∈ l, b < 256

instance (l : List Nat) : Decidable (AllBytes l) :=
  inferInstanceAs (Decidable (∀ b ∈ l, b < 256))

/-- Python exceptions that the embedded code can raise. -/
inductive PyErr where
  | valueError
  | keyError
  | indexError
  | assertionError
  | fileNotFound
  deriving DecidableEq

/-- Value of one hex digit, as in `bytes.fromhex` (`None` = not a hex digit). -/
def hexDigitVal (c : Char) : Option Nat :=
  if ('0' ≤ c ∧ c ≤ '9') then some (c.toNat - '0'.toNat)
  else if ('a' ≤ c ∧ c ≤ 'f') then some (c.toNat - 'a'.toNat + 10)
  else if ('A' ≤ c ∧ c ≤ 'F') then some (c.toNat - 'A'.toNat + 10)
  else none

/-- Parse a hex string two digits at a time; fails on an odd length or a
non-hex character, as Python `bytes.fromhex` does. -/
def hexPairs : List Char → Option (List Nat)
  | [] => some []
  | [_] => none
  | c1 :: c2 :: rest =>
    match hexDigitVal c1, hexDigitVal c2, hexPairs rest with
    | some hi, some lo, some bs => some ((16 * hi + lo) :: bs)
    | _, _, _ => none

/-- Python `bytes.fromhex`. -/
def hexToBytes (s : String) : Option (List Nat) := hexPairs s.toList

/-- Lowercase hex digit for a value below 16 (48 = `'0'`, 87 = `'a'` - 10). -/
def hexChar (n : Nat) : Char :=
  if n < 10 then Char.ofNat (48 + n) else Char.ofNat (87 + n)

/-- Python `bytes.hex()`: two lowercase hex digits per byte. -/
def bytesToHex (l : List Nat) : String :=
  ⟨l.foldr (fun b acc => hexChar (b / 16) :: hexChar (b % 16) :: acc) []⟩

theorem hexDigitVal_hexChar : ∀ n < 16, hexDigitVal (hexChar n) = some n := by
  decide

theorem hexToBytes_bytesToHex {l : List Nat} (h : AllBytes l) :
    hexToBytes (bytesToHex l) = some l := by
  induction l with
  | nil => rfl
  | cons b rest ih =>
    have hb : b < 256 := h b (List.mem_cons_self _ _)
    have hrest : AllBytes rest := fun x hx => h x (List.mem_cons_of_mem _ hx)
    have h1 : b / 16 < 16 := by omega
    have h2 : b % 16 < 16 := by omega
    have ihr : hexPairs (bytesToHex rest).toList = some rest := ih hrest
    show hexPairs (bytesToHex (b :: rest)).toList = some (b :: rest)
    have hexp : (bytesToHex (b :: rest)).toList
        = hexChar (b / 16) :: hexChar (b % 16) :: (bytesToHex rest).toList := rfl
    rw [hexp]
    simp only [hexPairs, hexDigitVal_hexChar _ h1, hexDigitVal_hexChar _ h2, ihr]
    have : 16 * (b / 16) + b % 16 = b := by omega
    rw [this]

/-! ## The Merkle tree primitive (`merkle_tree.py`) -/

/-- `MerkleTree._hash_pair`: concatenate and hash. -/
def hash_pair (H : List Nat → List Nat) (left right : List Nat) : List Nat :=
  H (left ++ right)

/-- One round of the `while` loop in `MerkleTree._build_tree`: pair adjacent
nodes left to right, duplicating an unpaired final node. -/
def buildLevel (H : List Nat → List Nat) : List (List Nat) → List (List Nat)
  | [] => []
  | [x] => [hash_pair H x x]
  | x :: y :: rest => hash_pair H x y :: buildLevel H rest

/-- The levels above the leaves, produced by the `while len(nodes) > 1` loop.
`fuel` bounds the number of rounds; `nodes.length` rounds always suffice. -/
def buildTreeAux (H : List Nat → List Nat) : Nat → List (List Nat) → List (List (List Nat))
  | 0, _ => []
  | fuel + 1, nodes =>
    if nodes.length ≤ 1 then []
    else buildLevel H nodes :: buildTreeAux H fuel (buildLevel H nodes)

/-- `MerkleTree._build_tree`: the leaves followed by every parent level. -/
def build_tree (H : List Nat → List Nat) (nodes : List (List Nat)) :
    List (List (List Nat)) :=
  nodes :: buildTreeAux H nodes.length nodes

/-- `MerkleTree.get_root`: `self.tree[-1][0]`. -/
def getRootD (tree : List (List (List Nat))) : List Nat :=
  (tree.getLastD []).getD 0 []

/-- The `self.leaves.index(leaf)` lookup (first occurrence). -/
def idxOf (v : List Nat) : List (List Nat) → Nat
  | [] => 0
  | x :: rest => if x = v then 0 else idxOf v rest + 1

/-- Body of the level loop in `MerkleTree.get_proof`: the sibling (`data`,
duplicating the node itself when the sibling index is out of range) and its
side (`position`). -/
def proofStep (level : List (List Nat)) (idx : Nat) : List Nat × String :=
  let isRight := idx % 2 = 1
  let sibIdx := if isRight then idx - 1 else idx + 1
  let pos := if isRight then "left" else "right"
  let sib := if level.length ≤ sibIdx then level.getD idx [] else level.getD sibIdx []
  (sib, pos)

/-- The loop of `MerkleTree.get_proof`: walk all levels but the root level,
recording a `proofStep` at each, then halve the index. -/
def getProofAux : List (List (List Nat)) → Nat → List (List Nat × String)
  | [], _ => []
  | [_], _ => []
  | level :: rest1 :: rest2, idx =>
    proofStep level idx :: getProofAux (rest1 :: rest2) (idx / 2)

/-- A built `MerkleTree` object: its `leaves` and `tree` attributes. -/
structure MTree where
  leaves : List (List Nat)
  tree : List (List (List Nat))
  deriving DecidableEq

/-- `MerkleTree.__init__`: raises `ValueError` on an empty leaf list. -/
def mkMerkleTree (H : List Nat → List Nat) (leaves : List (List Nat)) :
    Except PyErr MTree :=
  if leaves = [] then .error .valueError
  else .ok ⟨leaves, build_tree H leaves⟩

/-- `MerkleTree.get_proof`: raises `ValueError` when the leaf is absent. -/
def get_proof (mt : MTree) (leaf : List Nat) :
    Except PyErr (List (List Nat × String)) :=
  if leaf ∈ mt.leaves then .ok (getProofAux mt.tree (idxOf leaf mt.leaves))
  else .error .valueError

/-- One step of every proof-folding loop in the repository: hash the sibling
on its recorded side of the running value. -/
def applyStep (H : List Nat → List Nat) (cur : List Nat)
    (step : List Nat × String) : List Nat :=
  if step.2 = "left" then H (step.1 ++ cur) else H (cur ++ step.1)

/-- Fold a whole proof from a starting value. -/
def foldSteps (H : List Nat → List Nat) (cur : List Nat)
    (steps : List (List Nat × String)) : List Nat :=
  steps.foldl (applyStep H) cur

example : buildLevel (fun l => [l.length]) [[1], [2], [3]] = [[2], [2]] := by decide

example :
    build_tree (fun l => [l.foldl (· + ·) 0]) [[1], [2], [3]]
      = [[[1], [2], [3]], [[3], [6]], [[9]]] := by decide

example :
    getProofAux [[[1], [2], [3]], [[3], [6]], [[9]]] 2
      = [([3], "right"), ([3], "left")] := by decide

/-! ### Structural lemmas about the tree construction -/

/-- Induction principle that follows `buildLevel`'s recursion pattern. -/
theorem pairInd {motive : List (List Nat) → Prop} (h0 : motive [])
    (h1 : ∀ x, motive [x])
    (h2 : ∀ x y rest, motive rest → motive (x :: y :: rest)) :
    ∀ ns, motive ns
  | [] => h0
  | [x] => h1 x
  | x :: y :: rest => h2 x y rest (pairInd h0 h1 h2 rest)

theorem buildLevel_length (H : List Nat → List Nat) :
    ∀ ns : List (List Nat), (buildLevel H ns).length = (ns.length + 1) / 2 := by
  intro ns
  induction ns using pairInd with
  | h0 => simp [buildLevel]
  | h1 x => simp [buildLevel]
  | h2 x y rest ih =>
    show (buildLevel H rest).length + 1 = (rest.length + 2 + 1) / 2
    rw [ih]
    omega

/-- `buildTreeAux` does not depend on the fuel, as long as there is enough. -/
theorem buildTreeAux_fuel (H : List Nat → List Nat) :
    ∀ f g (ns : List (List Nat)), ns.length ≤ f → ns.length ≤ g →
      buildTreeAux H f ns = buildTreeAux H g ns := by
  intro f
  induction f with
  | zero =>
    intro g ns hf hg
    have hns : ns = [] := List.length_eq_zero.mp (by omega)
    subst hns
    cases g <;> simp [buildTreeAux]
  | succ f ih =>
    intro g ns hf hg
    cases g with
    | zero =>
      have hns : ns = [] := List.length_eq_zero.mp (by omega)
      subst hns
      simp [buildTreeAux]
    | succ g =>
      simp only [buildTreeAux]
      by_cases h1 : ns.length ≤ 1
      · simp [h1]
      · simp only [h1, if_false]
        have hl : (buildLevel H ns).length = (ns.length + 1) / 2 := buildLevel_length H ns
        have e : buildTreeAux H f (buildLevel H ns) = buildTreeAux H g (buildLevel H ns) :=
          ih g (buildLevel H ns) (by omega) (by omega)
        rw [e]

theorem build_tree_single (H : List Nat → List Nat) (ns : List (List Nat))
    (h : ns.length ≤ 1) : build_tree H ns = [ns] := by
  have h0 : ns.length = 0 ∨ ns.length = 1 := by omega
  unfold build_tree
  rcases h0 with h0 | h0 <;> rw [h0] <;> simp [buildTreeAux, h0]

theorem build_tree_cons (H : List Nat → List Nat) (ns : List (List Nat))
    (h : 2 ≤ ns.length) :
    build_tree H ns = ns :: build_tree H (buildLevel H ns) := by
  unfold build_tree
  congr 1
  obtain ⟨f, hf⟩ : ∃ f, ns.length = f + 1 := ⟨ns.length - 1, by omega⟩
  rw [hf]
  simp only [buildTreeAux]
  rw [if_neg (by omega)]
  congr 1
  have hl : (buildLevel H ns).length = (ns.length + 1) / 2 := buildLevel_length H ns
  exact buildTreeAux_fuel H f (buildLevel H ns).length (buildLevel H ns) (by omega) (by omega)

/-- The parent that `buildLevel` assigns to the node at index `i`. -/
def stepParent (H : List Nat → List Nat) (ns : List (List Nat)) (i : Nat) : List Nat :=
  if i % 2 = 1 then hash_pair H (ns.getD (i - 1) []) (ns.getD i [])
  else if i + 1 < ns.length then hash_pair H (ns.getD i []) (ns.getD (i + 1) [])
  else hash_pair H (ns.getD i []) (ns.getD i [])

theorem buildLevel_getD (H : List Nat → List Nat) :
    ∀ ns : List (List Nat), ∀ i, i < ns.length →
      (buildLevel H ns).getD (i / 2) [] = stepParent H ns i := by
  intro ns
  induction ns using pairInd with
  | h0 => intro i hi; simp at hi
  | h1 x =>
    intro i hi
    have hi0 : i = 0 := by simpa using hi
    subst hi0
    simp [buildLevel, stepParent]
  | h2 x y rest ih =>
    intro i hi
    match i with
    | 0 => simp [buildLevel, stepParent]
    | 1 => simp [buildLevel, stepParent]
    | n + 2 =>
      have hn : n < rest.length := by simpa using hi
      have hdiv : (n + 2) / 2 = n / 2 + 1 := by omega
      rw [hdiv]
      show (hash_pair H x y :: buildLevel H rest).getD (n / 2 + 1) [] = _
      rw [List.getD_cons_succ, ih n hn]
      unfold stepParent
      by_cases hodd : n % 2 = 1
      · obtain ⟨m, hm⟩ : ∃ m, n = m + 1 := ⟨n - 1, by omega⟩
        subst hm
        have : (m + 1 + 2) % 2 = 1 := by omega
        simp only [hodd, this, if_true]
        simp [List.getD_cons_succ]
      · have : ¬ (n + 2) % 2 = 1 := by omega
        simp only [hodd, this, if_false]
        have hcond : n + 1 < rest.length ↔ n + 2 + 1 < (x :: y :: rest).length := by
          simp; omega
        by_cases hin : n + 1 < rest.length
        · rw [if_pos hin, if_pos (by simpa using hcond.mp hin)]
          simp [List.getD_cons_succ]
        · rw [if_neg hin, if_neg (by rw [← hcond]; exact hin)]
          simp [List.getD_cons_succ]

theorem applyStep_proofStep (H : List Nat → List Nat) (ns : List (List Nat))
    (idx : Nat) (h : idx < ns.length) :
    applyStep H (ns.getD idx []) (proofStep ns idx) = stepParent H ns idx := by
  unfold applyStep proofStep stepParent
  by_cases hodd : idx % 2 = 1
  · have h1 : ¬ ns.length ≤ idx - 1 := by omega
    simp [hodd, h1, hash_pair]
  · by_cases hin : idx + 1 < ns.length
    · have h1 : ¬ ns.length ≤ idx + 1 := by omega
      simp [hodd, h1, hin, hash_pair]
    · have h1 : ns.length ≤ idx + 1 := by omega
      simp [hodd, h1, hin, hash_pair]

theorem getLastD_ne_nil {α : Type} {t : List α} (h : t ≠ []) (a b : α) :
    t.getLastD a = t.getLastD b := by
  cases t with
  | nil => exact absurd rfl h
  | cons c t' => rw [List.getLastD_cons, List.getLastD_cons]

theorem getRootD_cons (ns : List (List Nat)) (t : List (List (List Nat)))
    (h : t ≠ []) : getRootD (ns :: t) = getRootD t := by
  unfold getRootD
  rw [List.getLastD_cons]
  rw [getLastD_ne_nil h ns []]

theorem build_tree_ne_nil (H : List Nat → List Nat) (ns : List (List Nat)) :
    build_tree H ns ≠ [] := by
  simp [build_tree]

theorem getProofAux_cons (level : List (List Nat)) (t : List (List (List Nat)))
    (h : t ≠ []) (idx : Nat) :
    getProofAux (level :: t) idx = proofStep level idx :: getProofAux t (idx / 2) := by
  cases t with
  | nil => exact absurd rfl h
  | cons t1 t2 => rfl

/-- Folding the proof steps recorded for index `idx` from the value stored at
`idx` reaches the root, for every hash function. -/
theorem foldSteps_getProofAux (H : List Nat → List Nat) :
    ∀ (n : Nat) (ns : List (List Nat)), ns.length ≤ n → ∀ idx, idx < ns.length →
      foldSteps H (ns.getD idx []) (getProofAux (build_tree H ns) idx)
        = getRootD (build_tree H ns) := by
  intro n
  induction n with
  | zero => intro ns h idx hidx; omega
  | succ n ih =>
    intro ns hns idx hidx
    by_cases h1 : ns.length ≤ 1
    · rw [build_tree_single H ns h1]
      have hidx0 : idx = 0 := by omega
      subst hidx0
      simp [getProofAux, foldSteps, getRootD]
    · rw [build_tree_cons H ns (by omega)]
      rw [getProofAux_cons ns _ (build_tree_ne_nil H _) idx]
      rw [getRootD_cons ns _ (build_tree_ne_nil H _)]
      show foldSteps H (applyStep H (ns.getD idx []) (proofStep ns idx)) _ = _
      rw [applyStep_proofStep H ns idx hidx]
      rw [← buildLevel_getD H ns idx hidx]
      have hl : (buildLevel H ns).length = (ns.length + 1) / 2 := buildLevel_length H ns
      exact ih (buildLevel H ns) (by omega) (idx / 2) (by omega)

theorem idxOf_lt_length {v : List Nat} : ∀ {l : List (List Nat)}, v ∈ l →
    idxOf v l < l.length := by
  intro l hl
  induction l with
  | nil => simp at hl
  | cons x rest ih =>
    unfold idxOf
    by_cases hx : x = v
    · simp [hx]
    · rcases List.mem_cons.mp hl with h | h
      · exact absurd h.symm hx
      · simpa [hx] using ih h

theorem getD_idxOf {v : List Nat} : ∀ {l : List (List Nat)}, v ∈ l →
    l.getD (idxOf v l) [] = v := by
  intro l hl
  induction l with
  | nil => simp at hl
  | cons x rest ih =>
    unfold idxOf
    by_cases hx : x = v
    · simp [hx]
    · rcases List.mem_cons.mp hl with h | h
      · exact absurd h.symm hx
      · simpa [hx, List.getD_cons_succ] using ih h

/-- Small executable stand-in hash used by the concrete witnesses. -/
def sumHash (l : List Nat) : List Nat := [(l.foldl (fun a b => a + 2 * b) 7) % 256]

theorem allBytes_sumHash : ∀ l, AllBytes (sumHash l) := by
  intro l b hb
  simp only [sumHash, List.mem_singleton] at hb
  omega

/-- Claim C1: for every non-empty list of leaf digests and every leaf index
`i`, folding the proof returned by `MerkleTree.get_proof` for the `i`-th leaf
(hashing sibling-first on a `"left"` position, current-first on `"right"`,
starting from the leaf) yields exactly the tree's root as returned by
`get_root`. -/
theorem c1_get_proof_folds_to_root (H : List Nat → List Nat)
    (leaves : List (List Nat)) (i : Nat) (hi : i < leaves.length) :
    ∃ mt proof, mkMerkleTree H leaves = .ok mt ∧
      get_proof mt (leaves.getD i []) = .ok proof ∧
      foldSteps H (leaves.getD i []) proof = getRootD mt.tree := by
  have hne : leaves ≠ [] := by
    intro h
    subst h
    simp at hi
  have hmem : leaves.getD i [] ∈ leaves := by
    rw [List.getD_eq_getElem leaves [] hi]
    exact List.getElem_mem hi
  refine ⟨⟨leaves, build_tree H leaves⟩,
    getProofAux (build_tree H leaves) (idxOf (leaves.getD i []) leaves), ?_, ?_, ?_⟩
  · simp [mkMerkleTree, hne]
  · simp only [get_proof]
    rw [if_pos hmem]
  · have hj := idxOf_lt_length hmem
    have hg := getD_idxOf hmem
    have key := foldSteps_getProofAux H leaves.length leaves le_rfl
      (idxOf (leaves.getD i []) leaves) hj
    rw [hg] at key
    exact key

theorem c1_get_proof_folds_to_root_witness :
    1 < ([[1], [2], [3]] : List (List Nat)).length ∧
    ∃ mt proof, mkMerkleTree sumHash [[1], [2], [3]] = .ok mt ∧
      get_proof mt ([[1], [2], [3]].getD 1 []) = .ok proof ∧
      foldSteps sumHash ([[1], [2], [3]].getD 1 []) proof = getRootD mt.tree :=
  ⟨by decide, c1_get_proof_folds_to_root sumHash [[1], [2], [3]] 1 (by decide)⟩

/-- Levels above level `k` are each obtained from the previous one by
`buildLevel` (needed for claim C5). -/
theorem build_tree_chain (H : List Nat → List Nat) :
    ∀ (n : Nat) (ns : List (List Nat)), ns.length ≤ n →
      ∀ k, k + 1 < (build_tree H ns).length →
        (build_tree H ns).getD (k + 1) []
          = buildLevel H ((build_tree H ns).getD k []) := by
  intro n
  induction n with
  | zero =>
    intro ns hns k hk
    have hns0 : ns = [] := List.length_eq_zero.mp (by omega)
    subst hns0
    simp [build_tree, buildTreeAux] at hk
  | succ n ih =>
    intro ns hns k hk
    by_cases h1 : ns.length ≤ 1
    · rw [build_tree_single H ns h1] at hk ⊢
      simp at hk
    · rw [build_tree_cons H ns (by omega)] at hk ⊢
      have hl : (buildLevel H ns).length = (ns.length + 1) / 2 := buildLevel_length H ns
      match k with
      | 0 =>
        rw [List.getD_cons_succ, List.getD_cons_zero]
        show (build_tree H (buildLevel H ns)).getD 0 [] = _
        rfl
      | k + 1 =>
        rw [List.getD_cons_succ, List.getD_cons_succ]
        exact ih (buildLevel H ns) (by omega) k (by simpa using hk)

/-- The last level of a built tree holds exactly one node (claim C5). -/
theorem build_tree_last_single (H : List Nat → List Nat) :
    ∀ (n : Nat) (ns : List (List Nat)), ns.length ≤ n → ns ≠ [] →
      ((build_tree H ns).getLastD []).length = 1 := by
  intro n
  induction n with
  | zero =>
    intro ns hns hne
    exact absurd (List.length_eq_zero.mp (by omega)) hne
  | succ n ih =>
    intro ns hns hne
    by_cases h1 : ns.length ≤ 1
    · rw [build_tree_single H ns h1]
      have : ns.length = 1 := by
        have : ns.length ≠ 0 := fun h => hne (List.length_eq_zero.mp h)
        omega
      simpa using this
    · rw [build_tree_cons H ns (by omega), List.getLastD_cons,
        getLastD_ne_nil (build_tree_ne_nil H _) ns []]
      have hl : (buildLevel H ns).length = (ns.length + 1) / 2 := buildLevel_length H ns
      refine ih (buildLevel H ns) (by omega) ?_
      intro h
      rw [h] at hl
      simp at hl
      omega

/-- Claim C5: level 0 of the built tree is the leaves; each level `k+1` is
obtained by pairing adjacent nodes of level `k` left-to-right and hashing each
pair, an unpaired final node being hashed with itself (`buildLevel`);
construction stops at a single node; and for three leaves `A`, `B`, `C` the
root is `hash(hash(A ++ B) ++ hash(C ++ C))`. -/
theorem c5_build_tree_structure (H : List Nat → List Nat)
    (leaves : List (List Nat)) (hne : leaves ≠ []) :
    (build_tree H leaves).getD 0 [] = leaves ∧
    (∀ k, k + 1 < (build_tree H leaves).length →
      (build_tree H leaves).getD (k + 1) []
        = buildLevel H ((build_tree H leaves).getD k [])) ∧
    ((build_tree H leaves).getLastD []).length = 1 ∧
    (∀ A B C : List Nat, getRootD (build_tree H [A, B, C])
        = hash_pair H (hash_pair H A B) (hash_pair H C C)) := by
  refine ⟨rfl, build_tree_chain H leaves.length leaves le_rfl,
    build_tree_last_single H leaves.length leaves le_rfl hne, ?_⟩
  intro A B C
  rfl

theorem c5_build_tree_structure_witness :
    ([[1], [2], [3]] : List (List Nat)) ≠ [] ∧
    ((build_tree sumHash [[1], [2], [3]]).getD 0 [] = [[1], [2], [3]] ∧
    (∀ k, k + 1 < (build_tree sumHash [[1], [2], [3]]).length →
      (build_tree sumHash [[1], [2], [3]]).getD (k + 1) []
        = buildLevel sumHash ((build_tree sumHash [[1], [2], [3]]).getD k [])) ∧
    ((build_tree sumHash [[1], [2], [3]]).getLastD []).length = 1 ∧
    (∀ A B C : List Nat, getRootD (build_tree sumHash [A, B, C])
        = hash_pair sumHash (hash_pair sumHash A B) (hash_pair sumHash C C))) :=
  ⟨by decide, c5_build_tree_structure sumHash [[1], [2], [3]] (by decide)⟩

/-! ## The identity engine (`zk_merkle_identity.py`) -/

deriving instance DecidableEq for Except

/-- One `salt_cache` entry: the salt and the committed attribute list. -/
structure SaltEntry where
  salt : List Nat
  attributes : List String
  deriving DecidableEq

/-- The state of a `ZKMerkleIdentity` object: its `salt_cache` dict (in
insertion order) and its optional `merkle_tree`. -/
structure IdentityState where
  salt_cache : List (String × SaltEntry)
  merkle_tree : Option MTree
  deriving DecidableEq

/-- Python dict assignment `d[k] = v`: overwrite in place, else append. -/
def dictInsert {α : Type} (k : String) (v : α) : List (String × α) → List (String × α)
  | [] => [(k, v)]
  | (k', v') :: rest =>
    if k' = k then (k, v) :: rest else (k', v') :: dictInsert k v rest

/-- Python dict lookup `d.get(k)` / membership `k in d`. -/
def pyGet {α : Type} (k : String) : List (String × α) → Option α
  | [] => none
  | (k', v) :: rest => if k' = k then some v else pyGet k rest

/-- Code-point comparison of character lists (Python string `<`). -/
def charListLt : List Char → List Char → Bool
  | [], [] => false
  | [], _ :: _ => true
  | _ :: _, [] => false
  | c1 :: r1, c2 :: r2 =>
    if c1 < c2 then true else if c2 < c1 then false else charListLt r1 r2

def strLt (a b : String) : Bool := charListLt a.toList b.toList

/-- Insertion sort by key, modelling the `sort_keys=True` key ordering of
`json.dumps`. -/
def insertByKey (p : String × String) : List (String × String) → List (String × String)
  | [] => [p]
  | q :: rest => if strLt p.1 q.1 then p :: q :: rest else q :: insertByKey p rest

def sortByKey (l : List (String × String)) : List (String × String) :=
  l.foldr insertByKey []

/-- `json.dumps(doc, sort_keys=True)` for a dict of plain (escape-free ASCII)
strings, which is what the system's attribute values are. -/
def jsonDumpsSorted (pairs : List (String × String)) : String :=
  "\x7b" ++ String.intercalate ", "
      ((sortByKey pairs).map fun p => "\"" ++ p.1 ++ "\": \"" ++ p.2 ++ "\"")
    ++ "\x7d"

/-- `.encode('utf-8')` (the strings the system hashes are ASCII). -/
def strBytes (s : String) : List Nat := s.toList.map Char.toNat

/-- The dict comprehension `{k: document[k] for k in attrs if k in document}`. -/
def filterDoc (document : List (String × String)) (attrs : List String) :
    List (String × String) :=
  attrs.foldl (fun acc k =>
    match pyGet k document with
    | some v => dictInsert k v acc
    | none => acc) []

/-- The dict returned by `generate_disclosure_proof` and consumed by
`verify_disclosure`. -/
structure DisclosureProof where
  merkle_root : String
  disclosed_attributes : List (String × String)
  commitment : String
  path_elements : List String
  path_indices : List Nat
  blinded_salt : String
  deriving DecidableEq

/-- The commitment-search loop of `generate_disclosure_proof`: parse each
cached key (`ValueError` on a malformed one), recompute the commitment with
the entry's salt, and accept the first entry whose recomputed hex matches. -/
def findCommitment (H : List Nat → List Nat) (docBytes : List Nat) :
    List (String × SaltEntry) → Except PyErr (Option (List Nat × String))
  | [] => .ok none
  | (hexC, data) :: rest =>
    match hexToBytes hexC with
    | none => .error .valueError
    | some commitment =>
      if bytesToHex (H (docBytes ++ data.salt)) = hexC then
        .ok (some (commitment, hexC))
      else findCommitment H docBytes rest

/-- `ZKMerkleIdentity.generate_disclosure_proof`. -/
def generate_disclosure_proof (H : List Nat → List Nat) (st : IdentityState)
    (document : List (String × String)) (attributes_to_disclose : List String) :
    Except PyErr DisclosureProof :=
  match st.merkle_tree with
  | none => .error .valueError
  | some mt =>
    let filtered_doc := filterDoc document attributes_to_disclose
    match findCommitment H (strBytes (jsonDumpsSorted filtered_doc)) st.salt_cache with
    | .error e => .error e
    | .ok none => .error .valueError
    | .ok (some (original_commitment, commitment_hex)) =>
      match get_proof mt original_commitment with
      | .error e => .error e
      | .ok merkle_proof =>
        match pyGet commitment_hex st.salt_cache with
        | none => .error .keyError
        | some entry =>
          .ok {
            merkle_root := bytesToHex (getRootD mt.tree),
            disclosed_attributes := filtered_doc,
            commitment := commitment_hex,
            path_elements := merkle_proof.map (fun p => bytesToHex p.1),
            path_indices := merkle_proof.map (fun p => if p.2 = "right" then 1 else 0),
            blinded_salt := bytesToHex (H entry.salt) }

/-- The `binary_proof` loop of `verify_disclosure`: for each path element,
read `path_indices[i]` (a missing index raises `IndexError`), then parse the
element's hex (`ValueError` on bad hex). -/
def buildBinaryProof : List String → List Nat → Except PyErr (List (List Nat × String))
  | [], _ => .ok []
  | _ :: _, [] => .error .indexError
  | e :: es, idx :: idxs =>
    let position := if idx = 1 then "right" else "left"
    match hexToBytes e with
    | none => .error .valueError
    | some b =>
      match buildBinaryProof es idxs with
      | .error er => .error er
      | .ok rest => .ok ((b, position) :: rest)

/-- `ZKMerkleIdentity.verify_disclosure` (it reads nothing from `self`). -/
def verify_disclosure (H : List Nat → List Nat) (proof : DisclosureProof)
    (expected_root : String) : Except PyErr Bool :=
  if proof.merkle_root ≠ expected_root then .ok false
  else
    match hexToBytes proof.commitment with
    | none => .error .valueError
    | some commitment =>
      match buildBinaryProof proof.path_elements proof.path_indices with
      | .error e => .error e
      | .ok binary_proof =>
        match hexToBytes expected_root with
        | none => .error .valueError
        | some root_bytes =>
          .ok (decide (foldSteps H commitment binary_proof = root_bytes))

/-- The pickled payload written by `save_identity`. -/
structure IdentityFileData where
  salt_cache : List (String × SaltEntry)
  leaves : List (List Nat)
  tree : List (List (List Nat))
  deriving DecidableEq

/-- `ZKMerkleIdentity.save_identity` (raises without a tree). -/
def save_identity (st : IdentityState) : Except PyErr IdentityFileData :=
  match st.merkle_tree with
  | none => .error .valueError
  | some mt => .ok ⟨st.salt_cache, mt.leaves, mt.tree⟩

/-- The level-by-level check in `load_identity`: every saved node whose
indices are within the rebuilt tree's bounds must equal the rebuilt node
(the `zip`s truncate to exactly those bounds). -/
def treeMatches (saved rebuilt : List (List (List Nat))) : Bool :=
  (saved.zip rebuilt).all fun lvl =>
    (lvl.1.zip lvl.2).all fun nd => decide (nd.1 = nd.2)

/-- `ZKMerkleIdentity.load_identity`: restore the salt cache, rebuild the
tree from the persisted leaves, and check it against the persisted tree. -/
def load_identity (H : List Nat → List Nat) (data : IdentityFileData) :
    Except PyErr IdentityState :=
  match mkMerkleTree H data.leaves with
  | .error e => .error e
  | .ok mt =>
    if treeMatches data.tree mt.tree then .ok ⟨data.salt_cache, some mt⟩
    else .error .assertionError

/-- `ZKMerkleIdentity.get_merkle_root`. -/
def get_merkle_root (st : IdentityState) : Except PyErr String :=
  match st.merkle_tree with
  | none => .error .valueError
  | some mt => .ok (bytesToHex (getRootD mt.tree))

example :
    filterDoc [("name", "a"), ("dob", "b")] ["dob", "zz"] = [("dob", "b")] := by decide

example : jsonDumpsSorted [("b", "2"), ("a", "1")] = "\x7b\"a\": \"1\", \"b\": \"2\"\x7d" := by
  decide

example :
    verify_disclosure sumHash ⟨"0a", [], "0a", [], [], ""⟩ "0a" = .ok true := by decide

/-! ### Claims about the disclosure verifier -/

/-- Claim C9: an empty-path disclosure proof whose `merkle_root` and
`commitment` both equal the expected root verifies, whatever its
`disclosed_attributes`, `path_indices` and `blinded_salt` are; in general an
empty-path proof with the right `merkle_root` verifies exactly when its
claimed commitment parses to the same bytes as the expected root — nothing
binds the disclosed attributes or the blinded salt to the commitment. -/
theorem c9_empty_path_binds_only_commitment (H : List Nat → List Nat)
    (R : String) (hR : (hexToBytes R).isSome) :
    (∀ attrs idxs bsalt,
      verify_disclosure H ⟨R, attrs, R, [], idxs, bsalt⟩ R = .ok true) ∧
    (∀ proof : DisclosureProof, proof.path_elements = [] → proof.merkle_root = R →
      (verify_disclosure H proof R = .ok true ↔
        hexToBytes proof.commitment = hexToBytes R)) := by
  obtain ⟨rb, hrb⟩ := Option.isSome_iff_exists.mp hR
  constructor
  · intro attrs idxs bsalt
    unfold verify_disclosure
    rw [if_neg (fun h => h rfl)]
    simp only [hrb]
    show Except.ok (decide (foldSteps H rb [] = rb)) = .ok true
    simp [foldSteps]
  · intro proof hpe hm
    unfold verify_disclosure
    rw [hm, if_neg (fun h => h rfl), hpe]
    cases hc : hexToBytes proof.commitment with
    | none => simp [hrb]
    | some c =>
      simp only [hrb]
      show Except.ok (decide (foldSteps H c [] = rb)) = .ok true ↔ some c = some rb
      simp [foldSteps]

theorem c9_empty_path_binds_only_commitment_witness :
    (hexToBytes "0a1f").isSome ∧
    ((∀ attrs idxs bsalt,
      verify_disclosure sumHash ⟨"0a1f", attrs, "0a1f", [], idxs, bsalt⟩ "0a1f"
        = .ok true) ∧
    (∀ proof : DisclosureProof, proof.path_elements = [] →
      proof.merkle_root = "0a1f" →
      (verify_disclosure sumHash proof "0a1f" = .ok true ↔
        hexToBytes proof.commitment = hexToBytes "0a1f"))) :=
  ⟨by decide, c9_empty_path_binds_only_commitment sumHash "0a1f" (by decide)⟩

/-! ### Claim C8: identity save/load round-trip -/

theorem zip_self_map {α : Type} : ∀ t : List α, t.zip t = t.map (fun x => (x, x))
  | [] => rfl
  | a :: rest => by
    rw [List.zip_cons_cons, zip_self_map rest, List.map_cons]

theorem treeMatches_refl (t : List (List (List Nat))) : treeMatches t t = true := by
  unfold treeMatches
  rw [zip_self_map, List.all_eq_true]
  intro x hx
  rw [List.mem_map] at hx
  obtain ⟨lvl, _, rfl⟩ := hx
  rw [zip_self_map, List.all_eq_true]
  intro y hy
  rw [List.mem_map] at hy
  obtain ⟨nd, _, rfl⟩ := hy
  simp

/-- Claim C8: for every identity with a (non-empty) built tree,
`save_identity` followed by `load_identity` succeeds, returns the identical
state — the tree rebuilt from the persisted leaves passing the level-by-level
check against the persisted tree — and in particular preserves the Merkle
root. -/
theorem c8_identity_save_load_roundtrip (H : List Nat → List Nat)
    (st : IdentityState) (mt : MTree) (hmt : st.merkle_tree = some mt)
    (hne : mt.leaves ≠ []) (htree : mt.tree = build_tree H mt.leaves) :
    save_identity st = .ok ⟨st.salt_cache, mt.leaves, mt.tree⟩ ∧
    load_identity H ⟨st.salt_cache, mt.leaves, mt.tree⟩ = .ok st ∧
    (∀ st', load_identity H ⟨st.salt_cache, mt.leaves, mt.tree⟩ = .ok st' →
      get_merkle_root st' = get_merkle_root st) := by
  have hsave : save_identity st = .ok ⟨st.salt_cache, mt.leaves, mt.tree⟩ := by
    unfold save_identity
    rw [hmt]
  have hmteq : mt = ⟨mt.leaves, build_tree H mt.leaves⟩ := by
    cases mt
    simp_all
  have hload : load_identity H ⟨st.salt_cache, mt.leaves, mt.tree⟩ = .ok st := by
    unfold load_identity mkMerkleTree
    rw [if_neg hne]
    show (if treeMatches mt.tree (build_tree H mt.leaves) then _ else _) = _
    rw [htree, treeMatches_refl, if_pos rfl]
    show Except.ok ⟨st.salt_cache, some (⟨mt.leaves, build_tree H mt.leaves⟩ : MTree)⟩
      = .ok st
    rw [← hmteq, ← hmt]
  refine ⟨hsave, hload, fun st' h => ?_⟩
  have := hload.symm.trans h
  cases this
  rfl

def c8MT : MTree := ⟨[[1], [2]], build_tree sumHash [[1], [2]]⟩

def c8State : IdentityState := ⟨[], some c8MT⟩

theorem c8_identity_save_load_roundtrip_witness :
    (c8State.merkle_tree = some c8MT ∧ c8MT.leaves ≠ [] ∧
      c8MT.tree = build_tree sumHash c8MT.leaves) ∧
    (save_identity c8State = .ok ⟨c8State.salt_cache, c8MT.leaves, c8MT.tree⟩ ∧
    load_identity sumHash ⟨c8State.salt_cache, c8MT.leaves, c8MT.tree⟩ = .ok c8State ∧
    (∀ st', load_identity sumHash ⟨c8State.salt_cache, c8MT.leaves, c8MT.tree⟩
        = .ok st' → get_merkle_root st' = get_merkle_root c8State)) :=
  ⟨⟨rfl, by decide, rfl⟩,
    c8_identity_save_load_roundtrip sumHash c8State c8MT rfl (by decide) rfl⟩

/-! ### Claim C2, counterexample: `verify_disclosure` never reads
`disclosed_attributes`, so tampering with them does not invalidate a valid
proof. -/

def c2Doc : List (String × String) := [("name", "alice"), ("dob", "1990")]

/-- The commitment of `c2Doc` filtered to `name`, salted with `[1]`. -/
def c2C : List Nat := sumHash (strBytes (jsonDumpsSorted [("name", "alice")]) ++ [1])

def c2State : IdentityState :=
  ⟨[(bytesToHex c2C, ⟨[1], ["name"]⟩)], some ⟨[c2C], build_tree sumHash [c2C]⟩⟩

/-- The proof `generate_disclosure_proof` produces for `c2Doc`, `["name"]`. -/
def c2Proof : DisclosureProof :=
  ⟨bytesToHex c2C, [("name", "alice")], bytesToHex c2C, [], [],
    bytesToHex (sumHash [1])⟩

/-- `c2Proof` with one bit of `disclosed_attributes` flipped
(`'e'` = 0x65 becomes `'d'` = 0x64). -/
def c2Tampered : DisclosureProof :=
  { c2Proof with disclosed_attributes := [("name", "alicd")] }

theorem c2_tampered_attributes_still_verify :
    generate_disclosure_proof sumHash c2State c2Doc ["name"] = .ok c2Proof ∧
    verify_disclosure sumHash c2Proof (bytesToHex c2C) = .ok true ∧
    verify_disclosure sumHash c2Tampered (bytesToHex c2C) = .ok true := by
  decide

/-! ### Claim C6: selective disclosure of name and nationality -/

/-- The commitment of claim C6's scenario: an opening over exactly the
attribute subset name/nationality of the document, under `salt`. -/
def c6C (H : List Nat → List Nat) (vn vnat : String) (salt : List Nat) : List Nat :=
  H (strBytes (jsonDumpsSorted [("name", vn), ("nationality", vnat)]) ++ salt)

/-- The identity of claim C6's scenario: a single opening committed over
exactly name/nationality, its commitment being the only tree leaf. -/
def c6State (H : List Nat → List Nat) (vn vnat : String) (salt : List Nat) :
    IdentityState :=
  ⟨[(bytesToHex (c6C H vn vnat salt), ⟨salt, ["name", "nationality"]⟩)],
   some ⟨[c6C H vn vnat salt], build_tree H [c6C H vn vnat salt]⟩⟩

theorem c6gen (H : List Nat → List Nat)
    (hB : ∀ l, AllBytes (H l)) (vn vnat vd vp : String) (salt : List Nat) :
    generate_disclosure_proof H (c6State H vn vnat salt)
        [("name", vn), ("nationality", vnat), ("dob", vd), ("passport_number", vp)]
        ["name", "nationality"]
      = .ok ⟨bytesToHex (c6C H vn vnat salt), [("name", vn), ("nationality", vnat)],
          bytesToHex (c6C H vn vnat salt), [], [], bytesToHex (H salt)⟩ := by
  have hround : hexToBytes (bytesToHex (c6C H vn vnat salt)) = some (c6C H vn vnat salt) :=
    hexToBytes_bytesToHex (hB _)
  have hfd : filterDoc [("name", vn), ("nationality", vnat), ("dob", vd),
      ("passport_number", vp)] ["name", "nationality"]
      = [("name", vn), ("nationality", vnat)] := rfl
  have e6 : findCommitment H
      (strBytes (jsonDumpsSorted [("name", vn), ("nationality", vnat)]))
      [(bytesToHex (c6C H vn vnat salt), ⟨salt, ["name", "nationality"]⟩)]
      = .ok (some (c6C H vn vnat salt, bytesToHex (c6C H vn vnat salt))) := by
    simp only [findCommitment, hround]
    have hcond : bytesToHex (H (strBytes
        (jsonDumpsSorted [("name", vn), ("nationality", vnat)]) ++ salt))
        = bytesToHex (c6C H vn vnat salt) := rfl
    rw [if_pos hcond]
  have e5 : get_proof ⟨[c6C H vn vnat salt], build_tree H [c6C H vn vnat salt]⟩
      (c6C H vn vnat salt) = .ok [] := by
    unfold get_proof
    rw [if_pos (List.mem_singleton_self _)]
    show Except.ok (getProofAux (build_tree H [c6C H vn vnat salt])
      (idxOf (c6C H vn vnat salt) [c6C H vn vnat salt])) = _
    have e4 : idxOf (c6C H vn vnat salt) [c6C H vn vnat salt] = 0 := by
      unfold idxOf
      rw [if_pos rfl]
    rw [e4]
    rfl
  have e7 : pyGet (bytesToHex (c6C H vn vnat salt))
      [(bytesToHex (c6C H vn vnat salt), (⟨salt, ["name", "nationality"]⟩ : SaltEntry))]
      = some (⟨salt, ["name", "nationality"]⟩ : SaltEntry) := by
    unfold pyGet
    rw [if_pos rfl]
  unfold generate_disclosure_proof
  simp only [c6State, hfd, e6, e5, e7]
  rfl

theorem c6ver_true (H : List Nat → List Nat) (hB : ∀ l, AllBytes (H l))
    (vn vnat : String) (salt : List Nat) :
    verify_disclosure H
      ⟨bytesToHex (c6C H vn vnat salt), [("name", vn), ("nationality", vnat)],
        bytesToHex (c6C H vn vnat salt), [], [], bytesToHex (H salt)⟩
      (bytesToHex (c6C H vn vnat salt)) = .ok true := by
  have hround : hexToBytes (bytesToHex (c6C H vn vnat salt))
      = some (c6C H vn vnat salt) := hexToBytes_bytesToHex (hB _)
  unfold verify_disclosure
  rw [if_neg (fun h => h rfl)]
  simp only [hround]
  show Except.ok (decide (foldSteps H (c6C H vn vnat salt) []
    = c6C H vn vnat salt)) = .ok true
  simp [foldSteps]

theorem c6ver_false (H : List Nat → List Nat) (vn vnat : String) (salt : List Nat)
    (R : String) (hR : R ≠ bytesToHex (c6C H vn vnat salt)) :
    verify_disclosure H
      ⟨bytesToHex (c6C H vn vnat salt), [("name", vn), ("nationality", vnat)],
        bytesToHex (c6C H vn vnat salt), [], [], bytesToHex (H salt)⟩ R
      = .ok false := by
  unfold verify_disclosure
  rw [if_pos (fun h => hR h.symm)]

/-- Claim C6: for an identity holding an opening committed over exactly
name/nationality of a four-attribute document, `generate_disclosure_proof`
for `[name, nationality]` returns a proof whose `disclosed_attributes` are
exactly those two keys (no extra keys), and `verify_disclosure` accepts the
proof against the identity's Merkle root and rejects it against every other
expected root. -/
theorem c6_selective_disclosure (H : List Nat → List Nat)
    (hB : ∀ l, AllBytes (H l)) (vn vnat vd vp : String) (salt : List Nat) :
    ∃ p, generate_disclosure_proof H (c6State H vn vnat salt)
        [("name", vn), ("nationality", vnat), ("dob", vd), ("passport_number", vp)]
        ["name", "nationality"] = .ok p ∧
      p.disclosed_attributes = [("name", vn), ("nationality", vnat)] ∧
      get_merkle_root (c6State H vn vnat salt)
        = .ok (bytesToHex (c6C H vn vnat salt)) ∧
      verify_disclosure H p (bytesToHex (c6C H vn vnat salt)) = .ok true ∧
      (∀ R, R ≠ bytesToHex (c6C H vn vnat salt) →
        verify_disclosure H p R = .ok false) :=
  ⟨⟨bytesToHex (c6C H vn vnat salt), [("name", vn), ("nationality", vnat)],
      bytesToHex (c6C H vn vnat salt), [], [], bytesToHex (H salt)⟩,
    c6gen H hB vn vnat vd vp salt, rfl, rfl,
    c6ver_true H hB vn vnat salt,
    fun R hR => c6ver_false H vn vnat salt R hR⟩

theorem c6_selective_disclosure_witness :
    (∀ l, AllBytes (sumHash l)) ∧
    (∃ p, generate_disclosure_proof sumHash (c6State sumHash "alice" "zambian" [1, 2])
        [("name", "alice"), ("nationality", "zambian"), ("dob", "1990"),
          ("passport_number", "zp1")]
        ["name", "nationality"] = .ok p ∧
      p.disclosed_attributes = [("name", "alice"), ("nationality", "zambian")] ∧
      get_merkle_root (c6State sumHash "alice" "zambian" [1, 2])
        = .ok (bytesToHex (c6C sumHash "alice" "zambian" [1, 2])) ∧
      verify_disclosure sumHash p (bytesToHex (c6C sumHash "alice" "zambian" [1, 2]))
        = .ok true ∧
      (∀ R, R ≠ bytesToHex (c6C sumHash "alice" "zambian" [1, 2]) →
        verify_disclosure sumHash p R = .ok false)) :=
  ⟨allBytes_sumHash,
    c6_selective_disclosure sumHash allBytes_sumHash "alice" "zambian" "1990" "zp1" [1, 2]⟩

/-! ## The identity registry (`identity_registry.py`) -/

/-- One `registry_data` entry.  The wall-clock `registered_at` and free-form
`metadata` fields play no role in any verification path and are not
modelled; `identity_path` is the storage key of the saved identity (the
registry derives it from `identity_id`). -/
structure RegistryEntry where
  identity_root : String
  identity_id : String
  identity_path : String
  salt : String
  deriving DecidableEq

/-- The dict handed to `verify_identity_in_registry` (the keys it reads). -/
structure MembershipProof where
  salt : String
  path_elements : List String
  path_positions : List String
  deriving DecidableEq

/-- The state of an `IdentityRegistry`: the outer commitments
(`identity_roots`), the entry map, the salt map, the outer tree, and the
saved identity snapshots keyed by their storage path. -/
structure RegistryState where
  identity_roots : List (List Nat)
  registry_data : List (String × RegistryEntry)
  registry_salts : List (String × List Nat)
  registry_tree : Option MTree
  files : List (String × IdentityFileData)
  deriving DecidableEq

/-- A fresh registry (no `registry.pkl` on disk yet). -/
def initRegistry : RegistryState := ⟨[], [], [], none, []⟩

/-- The pickled payload written by `_save_registry`. -/
structure RegistryFileData where
  identity_roots : List (List Nat)
  registry_data : List (String × RegistryEntry)
  registry_salts : List (String × List Nat)
  deriving DecidableEq

/-- `IdentityRegistry.load_registry` from an existing `registry.pkl`:
restore the three maps and rebuild the outer tree when there are leaves. -/
def load_registry (H : List Nat → List Nat) (data : RegistryFileData)
    (files : List (String × IdentityFileData)) : RegistryState :=
  { identity_roots := data.identity_roots,
    registry_data := data.registry_data,
    registry_salts := data.registry_salts,
    registry_tree :=
      if data.identity_roots = [] then none
      else some ⟨data.identity_roots, build_tree H data.identity_roots⟩,
    files := files }

/-- `IdentityRegistry._save_registry`. -/
def save_registry (st : RegistryState) : RegistryFileData :=
  ⟨st.identity_roots, st.registry_data, st.registry_salts⟩

/-- `IdentityRegistry.register_identity`: save the identity, commit its root
under a fresh salt, append the commitment, rebuild the outer tree and record
the entry. -/
def register_identity (H : List Nat → List Nat) (st : RegistryState)
    (identity_id : String) (identity : IdentityState) (salt : List Nat) :
    Except PyErr RegistryState :=
  match save_identity identity with
  | .error e => .error e
  | .ok filedata =>
    match get_merkle_root identity with
    | .error e => .error e
    | .ok identity_root_hex =>
      let identity_root_bytes := (hexToBytes identity_root_hex).getD []
      let commitment := H (identity_root_bytes ++ salt)
      let roots := st.identity_roots ++ [commitment]
      .ok { identity_roots := roots,
            registry_data := dictInsert (bytesToHex commitment)
              ⟨identity_root_hex, identity_id, identity_id, bytesToHex salt⟩
              st.registry_data,
            registry_salts := dictInsert (bytesToHex commitment) salt st.registry_salts,
            registry_tree := some ⟨roots, build_tree H roots⟩,
            files := dictInsert identity_id filedata st.files }

/-- `IdentityRegistry.get_registry_root`: empty string without a tree. -/
def get_registry_root (st : RegistryState) : String :=
  match st.registry_tree with
  | none => ""
  | some t => bytesToHex (getRootD t.tree)

/-- The zip-and-parse comprehension of `verify_identity_in_registry`
(`zip` truncates to the shorter list; bad hex raises `ValueError`). -/
def parseRegSteps : List (String × String) → Except PyErr (List (List Nat × String))
  | [] => .ok []
  | (e, pos) :: rest =>
    match hexToBytes e with
    | none => .error .valueError
    | some b =>
      match parseRegSteps rest with
      | .error er => .error er
      | .ok tl => .ok ((b, pos) :: tl)

/-- `IdentityRegistry.verify_identity_in_registry`: the commitment
reconstruction is guarded by a bare `except` (returning `False`); the path
parsing is not. -/
def verify_identity_in_registry (H : List Nat → List Nat) (st : RegistryState)
    (identity_root : String) (proof : MembershipProof) : Except PyErr Bool :=
  match hexToBytes proof.salt, hexToBytes identity_root with
  | some salt, some identity_root_bytes =>
    let commitment := H (identity_root_bytes ++ salt)
    match st.registry_tree with
    | none => .ok false
    | some tree =>
      match parseRegSteps (proof.path_elements.zip proof.path_positions) with
      | .error e => .error e
      | .ok steps =>
        .ok (decide (foldSteps H commitment steps = getRootD tree.tree))
  | _, _ => .ok false

/-- `IdentityRegistry.get_identity`: locate the entry, then load the saved
snapshot from its storage path. -/
def get_identity (H : List Nat → List Nat) (st : RegistryState)
    (identity_id : String) : Except PyErr IdentityState :=
  match st.registry_data.find? (fun p => decide (p.2.identity_id = identity_id)) with
  | none => .error .valueError
  | some p =>
    match pyGet p.2.identity_path st.files with
    | none => .error .fileNotFound
    | some d => load_identity H d

/-! ### The composition verifier (`RegistryVerifier`) -/

/-- The dict handed to `RegistryVerifier.verify_user_package`; either key
may be absent. -/
structure UserPackage where
  merkle_root : Option String
  proof : Option MembershipProof
  deriving DecidableEq

/-- The dict returned by `verify_user_package` (union of the shapes the
branches return; absent keys are `none`). -/
structure PackageVerifyResult where
  valid : Bool
  reason : Option String
  registry_proof : Option MembershipProof
  identity_id : Option String
  deriving DecidableEq

/-- `RegistryVerifier.verify_user_package`.  Note `user_package["proof"]` is
read only after the root lookup succeeds, and raises `KeyError` when the
package carries no proof. -/
def verify_user_package (H : List Nat → List Nat) (st : RegistryState)
    (pkg : UserPackage) : Except PyErr PackageVerifyResult :=
  match pkg.merkle_root with
  | none => .error .valueError
  | some user_root =>
    if user_root = "" then .error .valueError
    else
      match st.registry_data.find?
          (fun p => decide (p.2.identity_root = user_root)) with
      | none => .ok ⟨false, some "Identity not found in registry", none, none⟩
      | some p =>
        match pkg.proof with
        | none => .error .keyError
        | some registry_proof =>
          match verify_identity_in_registry H st user_root registry_proof with
          | .error e => .error e
          | .ok is_valid =>
            .ok ⟨is_valid, none,
              if is_valid then some registry_proof else none,
              some p.2.identity_id⟩

/-- The dict returned by `verify_document_disclosure`. -/
structure DocVerifyResult where
  valid : Bool
  reason : Option String
  identity_id : Option String
  disclosed_attributes : List (String × String)
  registry_proof : Option MembershipProof
  deriving DecidableEq

/-- `RegistryVerifier.verify_document_disclosure`: check the proof's root is
registered by calling `verify_user_package` with a package holding only
`merkle_root`, then load the identity and verify the disclosure. -/
def verify_document_disclosure (H : List Nat → List Nat) (st : RegistryState)
    (disclosure_proof : DisclosureProof) : Except PyErr DocVerifyResult :=
  if disclosure_proof.merkle_root = "" then .error .valueError
  else
    match verify_user_package H st ⟨some disclosure_proof.merkle_root, none⟩ with
    | .error e => .error e
    | .ok root_verification =>
      if root_verification.valid = false then
        .ok ⟨false, some "Identity root not valid in registry", none, [], none⟩
      else
        match get_identity H st (root_verification.identity_id.getD "") with
        | .error e => .error e
        | .ok _identity =>
          match verify_disclosure H disclosure_proof disclosure_proof.merkle_root with
          | .error e => .error e
          | .ok doc_valid =>
            .ok ⟨doc_valid, none, root_verification.identity_id,
              disclosure_proof.disclosed_attributes,
              root_verification.registry_proof⟩

/-! ### Claim C10: empty registry -/

/-- Claim C10: with no registered identity (no outer tree),
`verify_identity_in_registry` returns `False` for every root and proof,
raising no exception. -/
theorem c10_empty_registry_always_false (H : List Nat → List Nat)
    (st : RegistryState) (h : st.registry_tree = none)
    (identity_root : String) (proof : MembershipProof) :
    verify_identity_in_registry H st identity_root proof = .ok false := by
  unfold verify_identity_in_registry
  rw [h]
  cases hexToBytes proof.salt <;> cases hexToBytes identity_root <;> rfl

theorem c10_empty_registry_always_false_witness :
    initRegistry.registry_tree = none ∧
    verify_identity_in_registry sumHash initRegistry "0a"
      ⟨"0b", ["0c"], ["left"]⟩ = .ok false :=
  ⟨rfl, c10_empty_registry_always_false sumHash initRegistry rfl "0a"
    ⟨"0b", ["0c"], ["left"]⟩⟩

/-! ### Claim C3: `verify_document_disclosure` on a registered root -/

theorem verify_user_package_missing_proof (H : List Nat → List Nat)
    (st : RegistryState) (user_root : String) (p : String × RegistryEntry)
    (hroot : ¬ user_root = "")
    (hfind : st.registry_data.find?
      (fun q => decide (q.2.identity_root = user_root)) = some p) :
    verify_user_package H st ⟨some user_root, none⟩ = .error .keyError := by
  simp only [verify_user_package]
  rw [if_neg hroot, hfind]

/-- Claim C3 (the code, at the claimed input): when the disclosure proof's
root *is* registered, `verify_document_disclosure` raises `KeyError` (its
internal `verify_user_package` call reads `user_package["proof"]` from a
package that carries only `merkle_root`); only the *unregistered* branch
returns the promised `valid=false` verdict. -/
theorem c3_registered_root_raises_keyerror (H : List Nat → List Nat)
    (st : RegistryState) (dp : DisclosureProof) (hroot : ¬ dp.merkle_root = "") :
    (∀ p, st.registry_data.find?
        (fun q => decide (q.2.identity_root = dp.merkle_root)) = some p →
      verify_document_disclosure H st dp = .error .keyError) ∧
    (st.registry_data.find?
        (fun q => decide (q.2.identity_root = dp.merkle_root)) = none →
      verify_document_disclosure H st dp
        = .ok ⟨false, some "Identity root not valid in registry", none, [], none⟩) := by
  constructor
  · intro p hfind
    unfold verify_document_disclosure
    rw [if_neg hroot, verify_user_package_missing_proof H st dp.merkle_root p hroot hfind]
  · intro hfind
    unfold verify_document_disclosure
    rw [if_neg hroot]
    simp only [verify_user_package]
    rw [if_neg hroot, hfind]
    rfl

def c3Entry : RegistryEntry := ⟨"aa", "id1", "id1", "00"⟩

def c3State : RegistryState :=
  ⟨[[7]], [("cc", c3Entry)], [("cc", [0])],
    some ⟨[[7]], build_tree sumHash [[7]]⟩, []⟩

def c3Proof : DisclosureProof := ⟨"aa", [], "aa", [], [], ""⟩

theorem c3_registered_root_raises_keyerror_witness :
    (¬ c3Proof.merkle_root = "") ∧
    c3State.registry_data.find?
      (fun q => decide (q.2.identity_root = c3Proof.merkle_root))
      = some ("cc", c3Entry) ∧
    verify_document_disclosure sumHash c3State c3Proof = .error .keyError :=
  ⟨by decide, by decide,
    (c3_registered_root_raises_keyerror sumHash c3State c3Proof (by decide)).1
      ("cc", c3Entry) (by decide)⟩

/-! ### Claim C4: behaviour on malformed proof fields -/

/-- Claim C4, counterexample: `verify_disclosure` raises (`ValueError`)
rather than returning `False` on a malformed `commitment` hex field. -/
theorem c4_malformed_commitment_raises :
    verify_disclosure sumHash ⟨"0a", [], "zz", [], [], ""⟩ "0a"
      = .error .valueError := by
  decide

/-- Claim C4, amended: only the registry verifier's commitment
reconstruction is guarded — `verify_identity_in_registry` returns `False`
when the proof's `salt` or the `identity_root` is malformed hex — while
`verify_disclosure` propagates an exception on a malformed field (shown here
for its `commitment`). -/
theorem c4_amended_malformed_handling (H : List Nat → List Nat) :
    (∀ (st : RegistryState) (identity_root : String) (proof : MembershipProof),
      hexToBytes proof.salt = none ∨ hexToBytes identity_root = none →
      verify_identity_in_registry H st identity_root proof = .ok false) ∧
    (∀ (proof : DisclosureProof) (R : String), proof.merkle_root = R →
      hexToBytes proof.commitment = none →
      verify_disclosure H proof R = .error .valueError) := by
  constructor
  · intro st identity_root proof h
    unfold verify_identity_in_registry
    rcases h with h | h
    · rw [h]
    · rw [h]
      cases hexToBytes proof.salt <;> rfl
  · intro proof R hm hc
    unfold verify_disclosure
    rw [hm, if_neg (fun hh => hh rfl), hc]

theorem c4_amended_malformed_handling_witness :
    verify_identity_in_registry sumHash initRegistry "0a" ⟨"zz", [], []⟩
      = .ok false ∧
    verify_disclosure sumHash ⟨"0b", [], "zz", [], [], ""⟩ "0b"
      = .error .valueError :=
  ⟨(c4_amended_malformed_handling sumHash).1 initRegistry "0a" ⟨"zz", [], []⟩
      (Or.inl (by decide)),
   (c4_amended_malformed_handling sumHash).2 ⟨"0b", [], "zz", [], [], ""⟩ "0b"
      rfl (by decide)⟩

/-! ### Claim C7: registry invariant over registration sequences -/

/-- One registration request: the identity to register and the fresh salt
`secrets.token_bytes(32)` draws for it. -/
structure RegInput where
  identity_id : String
  identity : IdentityState
  salt : List Nat
  deriving DecidableEq

/-- A sequence of `register_identity` calls. -/
def registerAll (H : List Nat → List Nat) (st : RegistryState) :
    List RegInput → Except PyErr RegistryState
  | [] => .ok st
  | r :: rest =>
    match register_identity H st r.identity_id r.identity r.salt with
    | .error e => .error e
    | .ok st' => registerAll H st' rest

/-- The Merkle root of a registration's identity (empty without a tree). -/
def identRoot (r : RegInput) : List Nat :=
  match r.identity.merkle_tree with
  | none => []
  | some mt => getRootD mt.tree

/-- The outer commitment `sha256(identity_root ‖ salt)` of a registration. -/
def outerCommitment (H : List Nat → List Nat) (r : RegInput) : List Nat :=
  H (identRoot r ++ r.salt)

theorem registerAll_append (H : List Nat → List Nat) :
    ∀ (xs : List RegInput) (st : RegistryState) (r : RegInput),
      registerAll H st (xs ++ [r])
        = match registerAll H st xs with
          | .error e => .error e
          | .ok st' => register_identity H st' r.identity_id r.identity r.salt := by
  intro xs
  induction xs with
  | nil =>
    intro st r
    show registerAll H st [r] = _
    simp only [registerAll]
    cases register_identity H st r.identity_id r.identity r.salt <;> rfl
  | cons x xs ih =>
    intro st r
    show registerAll H st (x :: (xs ++ [r])) = _
    simp only [registerAll]
    cases register_identity H st x.identity_id x.identity x.salt with
    | error e => rfl
    | ok st1 => exact ih st1 r

theorem dictInsert_fresh {α : Type} (k : String) (v : α) :
    ∀ d : List (String × α), k ∉ d.map Prod.fst → dictInsert k v d = d ++ [(k, v)] := by
  intro d
  induction d with
  | nil => intro _; rfl
  | cons p rest ih =>
    intro h
    obtain ⟨k', v'⟩ := p
    simp only [List.map_cons, List.mem_cons] at h
    push_neg at h
    unfold dictInsert
    rw [if_neg (fun he => h.1 he.symm), ih h.2]
    rfl

theorem load_save_registry (H : List Nat → List Nat) (st : RegistryState)
    (h : st.registry_tree = (if st.identity_roots = [] then none
      else some ⟨st.identity_roots, build_tree H st.identity_roots⟩)) :
    load_registry H (save_registry st) st.files = st := by
  obtain ⟨roots, data, salts, tree, files⟩ := st
  simp only [load_registry, save_registry] at h ⊢
  rw [← h]

theorem register_identity_eq (H : List Nat → List Nat) (st : RegistryState)
    (r : RegInput) (mt : MTree) (hmt : r.identity.merkle_tree = some mt)
    (hroot : AllBytes (identRoot r)) :
    register_identity H st r.identity_id r.identity r.salt
      = .ok { identity_roots := st.identity_roots ++ [outerCommitment H r],
              registry_data := dictInsert (bytesToHex (outerCommitment H r))
                ⟨bytesToHex (identRoot r), r.identity_id, r.identity_id,
                  bytesToHex r.salt⟩ st.registry_data,
              registry_salts := dictInsert (bytesToHex (outerCommitment H r))
                r.salt st.registry_salts,
              registry_tree := some ⟨st.identity_roots ++ [outerCommitment H r],
                build_tree H (st.identity_roots ++ [outerCommitment H r])⟩,
              files := dictInsert r.identity_id
                ⟨r.identity.salt_cache, mt.leaves, mt.tree⟩ st.files } := by
  have hsave : save_identity r.identity
      = .ok ⟨r.identity.salt_cache, mt.leaves, mt.tree⟩ := by
    unfold save_identity
    rw [hmt]
  have hgmr : get_merkle_root r.identity = .ok (bytesToHex (identRoot r)) := by
    unfold get_merkle_root identRoot
    rw [hmt]
  have hrb : (hexToBytes (bytesToHex (identRoot r))).getD [] = identRoot r := by
    rw [hexToBytes_bytesToHex hroot]
    rfl
  unfold register_identity
  simp only [hsave, hgmr, hrb, outerCommitment]

/-- Claim C7: after every sequence of `register_identity` calls (with the
practically-guaranteed distinctness of the outer commitments), the outer
tree is built over exactly the outer commitments
`sha256(identity_root ‖ salt)` in registration order, that leaf list equals
the commitment keys of the entry map in order, and saving then reloading the
registry reproduces the very same state — in particular the same root. -/
theorem c7_registry_tree_matches_entries (H : List Nat → List Nat)
    (regs : List RegInput)
    (htrees : ∀ r ∈ regs, r.identity.merkle_tree ≠ none)
    (hroots : ∀ r ∈ regs, AllBytes (identRoot r))
    (hnodup : ((regs.map (outerCommitment H)).map bytesToHex).Nodup) :
    ∃ st, registerAll H initRegistry regs = .ok st ∧
      st.identity_roots = regs.map (outerCommitment H) ∧
      st.registry_data.map Prod.fst
        = (regs.map (outerCommitment H)).map bytesToHex ∧
      st.registry_tree = (if regs = [] then none
        else some ⟨regs.map (outerCommitment H),
          build_tree H (regs.map (outerCommitment H))⟩) ∧
      load_registry H (save_registry st) st.files = st ∧
      get_registry_root (load_registry H (save_registry st) st.files)
        = get_registry_root st := by
  induction regs using List.reverseRecOn with
  | nil => exact ⟨initRegistry, rfl, rfl, rfl, rfl, rfl, rfl⟩
  | append_singleton xs r ih =>
    have htrees' : ∀ q ∈ xs, q.identity.merkle_tree ≠ none :=
      fun q hq => htrees q (List.mem_append_left _ hq)
    have hroots' : ∀ q ∈ xs, AllBytes (identRoot q) :=
      fun q hq => hroots q (List.mem_append_left _ hq)
    have hmap : ((xs ++ [r]).map (outerCommitment H)).map bytesToHex
        = (xs.map (outerCommitment H)).map bytesToHex
          ++ [bytesToHex (outerCommitment H r)] := by
      simp
    rw [hmap] at hnodup
    have hnodup' : ((xs.map (outerCommitment H)).map bytesToHex).Nodup :=
      hnodup.of_append_left
    have hfresh : bytesToHex (outerCommitment H r)
        ∉ (xs.map (outerCommitment H)).map bytesToHex := by
      intro hmem
      rcases List.nodup_append.mp hnodup with ⟨-, -, hdisj⟩
      exact hdisj hmem (List.mem_singleton_self _)
    obtain ⟨st, hreg, hroots_eq, hkeys, htree, hload, hrt⟩ :=
      ih htrees' hroots' hnodup'
    have hrmem : r ∈ xs ++ [r] :=
      List.mem_append_right _ (List.mem_singleton_self _)
    obtain ⟨mt, hmt⟩ : ∃ mt, r.identity.merkle_tree = some mt := by
      cases hcase : r.identity.merkle_tree with
      | none => exact absurd hcase (htrees r hrmem)
      | some mt => exact ⟨mt, rfl⟩
    have hre := register_identity_eq H st r mt hmt (hroots r hrmem)
    have hfresh' : bytesToHex (outerCommitment H r)
        ∉ st.registry_data.map Prod.fst := by
      rw [hkeys]
      exact hfresh
    have hne : xs ++ [r] ≠ [] := by simp
    have hne' : st.identity_roots ++ [outerCommitment H r] ≠ [] := by simp
    obtain ⟨stNew, hshape⟩ : ∃ st2 : RegistryState,
        st2 = { identity_roots := st.identity_roots ++ [outerCommitment H r],
                registry_data := dictInsert (bytesToHex (outerCommitment H r))
                  ⟨bytesToHex (identRoot r), r.identity_id, r.identity_id,
                    bytesToHex r.salt⟩ st.registry_data,
                registry_salts := dictInsert (bytesToHex (outerCommitment H r))
                  r.salt st.registry_salts,
                registry_tree := some ⟨st.identity_roots ++ [outerCommitment H r],
                  build_tree H (st.identity_roots ++ [outerCommitment H r])⟩,
                files := dictInsert r.identity_id
                  ⟨r.identity.salt_cache, mt.leaves, mt.tree⟩ st.files } :=
      ⟨_, rfl⟩
    have hcond : stNew.registry_tree = (if stNew.identity_roots = [] then none
        else some ⟨stNew.identity_roots, build_tree H stNew.identity_roots⟩) := by
      rw [hshape]
      show (some (⟨st.identity_roots ++ [outerCommitment H r],
        build_tree H (st.identity_roots ++ [outerCommitment H r])⟩ : MTree)
          : Option MTree) = _
      rw [if_neg hne']
    have h5 : load_registry H (save_registry stNew) stNew.files = stNew :=
      load_save_registry H stNew hcond
    refine ⟨stNew, ?_, ?_, ?_, ?_, h5, by rw [h5]⟩
    · rw [registerAll_append H xs initRegistry r, hreg, hshape]
      exact hre
    · rw [hshape]
      show st.identity_roots ++ [outerCommitment H r] = _
      rw [hroots_eq]
      simp
    · rw [hshape]
      show (dictInsert (bytesToHex (outerCommitment H r)) _
        st.registry_data).map Prod.fst = _
      rw [dictInsert_fresh _ _ _ hfresh']
      simp [hkeys]
    · rw [hshape]
      show (some (⟨st.identity_roots ++ [outerCommitment H r],
        build_tree H (st.identity_roots ++ [outerCommitment H r])⟩ : MTree)
          : Option MTree) = _
      rw [if_neg hne, hroots_eq]
      simp

def c7Regs : List RegInput :=
  [⟨"id1", ⟨[], some ⟨[[1]], build_tree sumHash [[1]]⟩⟩, [1]⟩,
   ⟨"id2", ⟨[], some ⟨[[2]], build_tree sumHash [[2]]⟩⟩, [2]⟩]

theorem c7_registry_tree_matches_entries_witness :
    (∀ r ∈ c7Regs, r.identity.merkle_tree ≠ none) ∧
    (∀ r ∈ c7Regs, AllBytes (identRoot r)) ∧
    ((c7Regs.map (outerCommitment sumHash)).map bytesToHex).Nodup ∧
    (∃ st, registerAll sumHash initRegistry c7Regs = .ok st ∧
      st.identity_roots = c7Regs.map (outerCommitment sumHash) ∧
      st.registry_data.map Prod.fst
        = (c7Regs.map (outerCommitment sumHash)).map bytesToHex ∧
      st.registry_tree = (if c7Regs = [] then none
        else some ⟨c7Regs.map (outerCommitment sumHash),
          build_tree sumHash (c7Regs.map (outerCommitment sumHash))⟩) ∧
      load_registry sumHash (save_registry st) st.files = st ∧
      get_registry_root (load_registry sumHash (save_registry st) st.files)
        = get_registry_root st) :=
  ⟨by decide, by decide, by decide,
    c7_registry_tree_matches_entries sumHash c7Regs (by decide) (by decide)
      (by decide)⟩

/-! ### Claim C2, amended: tampering with the fields the verifiers read -/

theorem applyStep_inj (H : List Nat → List Nat) (hinj : Function.Injective H)
    {c c' : List Nat} {s : List Nat × String}
    (h : applyStep H c s = applyStep H c' s) : c = c' := by
  unfold applyStep at h
  by_cases hp : s.2 = "left"
  · rw [if_pos hp, if_pos hp] at h
    exact List.append_cancel_left (hinj h)
  · rw [if_neg hp, if_neg hp] at h
    exact List.append_cancel_right (hinj h)

theorem foldSteps_cons (H : List Nat → List Nat) (c : List Nat)
    (s : List Nat × String) (rest : List (List Nat × String)) :
    foldSteps H c (s :: rest) = foldSteps H (applyStep H c s) rest := rfl

theorem foldSteps_inj (H : List Nat → List Nat) (hinj : Function.Injective H) :
    ∀ (steps : List (List Nat × String)) {c c' : List Nat},
      foldSteps H c steps = foldSteps H c' steps → c = c' := by
  intro steps
  induction steps with
  | nil => intro c c' h; exact h
  | cons s rest ih => intro c c' h; exact applyStep_inj H hinj (ih h)

theorem foldSteps_append (H : List Nat → List Nat) (c : List Nat)
    (a b : List (List Nat × String)) :
    foldSteps H c (a ++ b) = foldSteps H (foldSteps H c a) b := by
  simp [foldSteps, List.foldl_append]

/-- An injective hash separates a fold from the same fold with one sibling
replaced by a different value at the same position. -/
theorem foldSteps_tamper (H : List Nat → List Nat) (hinj : Function.Injective H)
    (pre post : List (List Nat × String)) (s s' : List Nat) (p : String)
    (hne : s' ≠ s) (c : List Nat) :
    foldSteps H c (pre ++ (s', p) :: post) ≠ foldSteps H c (pre ++ (s, p) :: post) := by
  intro h
  rw [foldSteps_append, foldSteps_append, foldSteps_cons, foldSteps_cons] at h
  have h2 := foldSteps_inj H hinj post h
  unfold applyStep at h2
  by_cases hp : p = "left"
  · rw [if_pos hp, if_pos hp] at h2
    exact hne (List.append_cancel_right (hinj h2))
  · rw [if_neg hp, if_neg hp] at h2
    exact hne (List.append_cancel_left (hinj h2))

/-- What a successful `binary_proof` parse of `verify_disclosure` gives:
one step per element, each element's bytes recorded in its step, and the
effect of replacing one element with other well-formed hex. -/
theorem buildBinaryProof_parts :
    ∀ (es : List String) (idxs : List Nat) (steps : List (List Nat × String)),
      buildBinaryProof es idxs = .ok steps →
      steps.length = es.length ∧
      (∀ i, i < es.length →
        hexToBytes (es.getD i "") = some ((steps.getD i ([], "")).1) ∧
        ∀ e' s', hexToBytes e' = some s' →
          buildBinaryProof (es.set i e') idxs
            = .ok (steps.set i (s', (steps.getD i ([], "")).2))) := by
  intro es
  induction es with
  | nil =>
    intro idxs steps h
    simp only [buildBinaryProof] at h
    have hsteps : steps = [] := (Except.ok.inj h).symm
    subst hsteps
    exact ⟨rfl, fun i hi => absurd hi (by simp)⟩
  | cons e es ih =>
    intro idxs steps h
    cases idxs with
    | nil => simp [buildBinaryProof] at h
    | cons idx idxs =>
      simp only [buildBinaryProof] at h
      cases hhe : hexToBytes e with
      | none => rw [hhe] at h; simp at h
      | some b =>
        rw [hhe] at h
        cases hrest : buildBinaryProof es idxs with
        | error er => rw [hrest] at h; simp at h
        | ok tl =>
          rw [hrest] at h
          have hsteps : steps = (b, if idx = 1 then "right" else "left") :: tl :=
            (Except.ok.inj h).symm
          subst hsteps
          obtain ⟨hlen, htl⟩ := ih idxs tl hrest
          refine ⟨by simp [hlen], ?_⟩
          intro i hi
          match i with
          | 0 =>
            refine ⟨by simpa using hhe, ?_⟩
            intro e' s' he'
            show buildBinaryProof (e' :: es) (idx :: idxs) = _
            simp only [buildBinaryProof, he', hrest]
            rfl
          | i + 1 =>
            have hi' : i < es.length := by simpa using hi
            obtain ⟨h1, h2⟩ := htl i hi'
            refine ⟨by simpa [List.getD_cons_succ] using h1, ?_⟩
            intro e' s' he'
            have h3 := h2 e' s' he'
            show buildBinaryProof (e :: es.set i e') (idx :: idxs) = _
            simp only [buildBinaryProof, hhe, h3]
            simp [List.getD_cons_succ]

/-- Decomposition of a successful `verify_disclosure`. -/
theorem verify_disclosure_ok_true_parts (H : List Nat → List Nat)
    (proof : DisclosureProof) (R : String)
    (h : verify_disclosure H proof R = .ok true) :
    proof.merkle_root = R ∧
    ∃ b steps rb, hexToBytes proof.commitment = some b ∧
      buildBinaryProof proof.path_elements proof.path_indices = .ok steps ∧
      hexToBytes R = some rb ∧ foldSteps H b steps = rb := by
  unfold verify_disclosure at h
  by_cases hm : proof.merkle_root ≠ R
  · rw [if_pos hm] at h
    simp at h
  · rw [if_neg hm] at h
    push_neg at hm
    refine ⟨hm, ?_⟩
    cases hc : hexToBytes proof.commitment with
    | none => rw [hc] at h; simp at h
    | some b =>
      rw [hc] at h
      cases hbp : buildBinaryProof proof.path_elements proof.path_indices with
      | error e => rw [hbp] at h; simp at h
      | ok steps =>
        rw [hbp] at h
        cases hr : hexToBytes R with
        | none => rw [hr] at h; simp at h
        | some rb =>
          rw [hr] at h
          refine ⟨b, steps, rb, rfl, rfl, rfl, ?_⟩
          simpa using h

/-- `verify_disclosure`, evaluated once all its parses are known. -/
theorem verify_disclosure_eval (H : List Nat → List Nat)
    (proof : DisclosureProof) (R : String) (b : List Nat)
    (steps : List (List Nat × String)) (rb : List Nat)
    (hm : proof.merkle_root = R)
    (hc : hexToBytes proof.commitment = some b)
    (hbp : buildBinaryProof proof.path_elements proof.path_indices = .ok steps)
    (hr : hexToBytes R = some rb) :
    verify_disclosure H proof R = .ok (decide (foldSteps H b steps = rb)) := by
  unfold verify_disclosure
  rw [hm, if_neg (fun hh => hh rfl), hc, hbp, hr]

/-- What a successful zipped-path parse of `verify_identity_in_registry`
gives, and the effect of replacing one zipped element. -/
theorem parseRegSteps_parts :
    ∀ (pairs : List (String × String)) (steps : List (List Nat × String)),
      parseRegSteps pairs = .ok steps →
      steps.length = pairs.length ∧
      (∀ i, i < pairs.length →
        hexToBytes ((pairs.getD i ("", "")).1) = some ((steps.getD i ([], "")).1) ∧
        (steps.getD i ([], "")).2 = (pairs.getD i ("", "")).2 ∧
        ∀ e' s', hexToBytes e' = some s' →
          parseRegSteps (pairs.set i (e', (pairs.getD i ("", "")).2))
            = .ok (steps.set i (s', (steps.getD i ([], "")).2))) := by
  intro pairs
  induction pairs with
  | nil =>
    intro steps h
    simp only [parseRegSteps] at h
    have hsteps : steps = [] := (Except.ok.inj h).symm
    subst hsteps
    exact ⟨rfl, fun i hi => absurd hi (by simp)⟩
  | cons pr rest ih =>
    intro steps h
    obtain ⟨e, pos⟩ := pr
    simp only [parseRegSteps] at h
    cases hhe : hexToBytes e with
    | none => rw [hhe] at h; simp at h
    | some b =>
      rw [hhe] at h
      cases hrest : parseRegSteps rest with
      | error er => rw [hrest] at h; simp at h
      | ok tl =>
        rw [hrest] at h
        have hsteps : steps = (b, pos) :: tl := (Except.ok.inj h).symm
        subst hsteps
        obtain ⟨hlen, htl⟩ := ih tl hrest
        refine ⟨by simp [hlen], ?_⟩
        intro i hi
        match i with
        | 0 =>
          refine ⟨by simpa using hhe, rfl, ?_⟩
          intro e' s' he'
          show parseRegSteps ((e', pos) :: rest) = _
          simp only [parseRegSteps, he', hrest]
          rfl
        | i + 1 =>
          have hi' : i < rest.length := by simpa using hi
          obtain ⟨h1, h2, h3⟩ := htl i hi'
          refine ⟨by simpa [List.getD_cons_succ] using h1,
            by simpa [List.getD_cons_succ] using h2, ?_⟩
          intro e' s' he'
          have h4 := h3 e' s' he'
          rw [show (((e, pos) :: rest).getD (i + 1) ("", ""))
                = rest.getD i ("", "") from List.getD_cons_succ,
              show ((((b, pos) :: tl).getD (i + 1) ([], "")))
                = tl.getD i ([], "") from List.getD_cons_succ]
          show parseRegSteps ((e, pos) :: rest.set i (e', (rest.getD i ("", "")).2))
            = Except.ok ((b, pos) :: tl.set i (s', (tl.getD i ([], "")).2))
          simp only [parseRegSteps, hhe, h4]

theorem zip_set_left_str :
    ∀ (es ps : List String) (i : Nat) (e' : String), i < es.length → i < ps.length →
      (es.set i e').zip ps = (es.zip ps).set i (e', ps.getD i "") := by
  intro es
  induction es with
  | nil => intro ps i e' hi; simp at hi
  | cons e es ih =>
    intro ps i e' hi hip
    cases ps with
    | nil => simp at hip
    | cons p ps =>
      match i with
      | 0 => simp [List.zip_cons_cons]
      | i + 1 =>
        simp only [List.set, List.zip_cons_cons, List.getD_cons_succ]
        rw [ih ps i e' (by simpa using hi) (by simpa using hip)]
        rfl

theorem zip_getD_str :
    ∀ (es ps : List String) (i : Nat), i < es.length → i < ps.length →
      (es.zip ps).getD i ("", "") = (es.getD i "", ps.getD i "") := by
  intro es
  induction es with
  | nil => intro ps i hi; simp at hi
  | cons e es ih =>
    intro ps i hi hip
    cases ps with
    | nil => simp at hip
    | cons p ps =>
      match i with
      | 0 => simp [List.zip_cons_cons]
      | i + 1 =>
        simp only [List.zip_cons_cons, List.getD_cons_succ]
        exact ih ps i (by simpa using hi) (by simpa using hip)

/-- Decomposition of a successful `verify_identity_in_registry`. -/
theorem verify_registry_ok_true_parts (H : List Nat → List Nat)
    (st : RegistryState) (root : String) (proof : MembershipProof)
    (h : verify_identity_in_registry H st root proof = .ok true) :
    ∃ s rb tree steps, hexToBytes proof.salt = some s ∧
      hexToBytes root = some rb ∧ st.registry_tree = some tree ∧
      parseRegSteps (proof.path_elements.zip proof.path_positions) = .ok steps ∧
      foldSteps H (H (rb ++ s)) steps = getRootD tree.tree := by
  unfold verify_identity_in_registry at h
  cases hs : hexToBytes proof.salt with
  | none => rw [hs] at h; simp at h
  | some s =>
    rw [hs] at h
    cases hr : hexToBytes root with
    | none => rw [hr] at h; simp at h
    | some rb =>
      rw [hr] at h
      cases ht : st.registry_tree with
      | none => rw [ht] at h; simp at h
      | some tree =>
        rw [ht] at h
        cases hp : parseRegSteps (proof.path_elements.zip proof.path_positions) with
        | error e => rw [hp] at h; simp at h
        | ok steps =>
          rw [hp] at h
          exact ⟨s, rb, tree, steps, rfl, rfl, rfl, rfl, by simpa using h⟩

/-- `verify_identity_in_registry`, evaluated once its parses are known. -/
theorem verify_registry_eval (H : List Nat → List Nat) (st : RegistryState)
    (root : String) (proof : MembershipProof) (s rb : List Nat) (tree : MTree)
    (steps : List (List Nat × String))
    (hs : hexToBytes proof.salt = some s) (hr : hexToBytes root = some rb)
    (ht : st.registry_tree = some tree)
    (hp : parseRegSteps (proof.path_elements.zip proof.path_positions) = .ok steps) :
    verify_identity_in_registry H st root proof
      = .ok (decide (foldSteps H (H (rb ++ s)) steps = getRootD tree.tree)) := by
  unfold verify_identity_in_registry
  rw [hs, hr, ht, hp]

theorem foldSteps_set_ne (H : List Nat → List Nat) (hinj : Function.Injective H)
    (steps : List (List Nat × String)) (i : Nat) (hi : i < steps.length)
    (s s' : List Nat) (hs : (steps.getD i ([], "")).1 = s) (hne : s' ≠ s)
    (c : List Nat) :
    foldSteps H c (steps.set i (s', (steps.getD i ([], "")).2))
      ≠ foldSteps H c steps := by
  have heta : (s, (steps.getD i ([], "")).2) = steps.getD i ([], "") := by
    rw [← hs]
  have hsetd : steps.set i (s', (steps.getD i ([], "")).2)
      = steps.take i ++ (s', (steps.getD i ([], "")).2) :: steps.drop (i + 1) :=
    List.set_eq_take_cons_drop _ hi
  have hdecomp : steps
      = steps.take i ++ (s, (steps.getD i ([], "")).2) :: steps.drop (i + 1) := by
    conv_lhs => rw [← List.take_append_drop i steps]
    congr 1
    rw [List.drop_eq_getElem_cons hi]
    congr 1
    rw [heta]
    exact (List.getD_eq_getElem steps ([], "") hi).symm
  rw [hsetd]
  conv_rhs => rw [hdecomp]
  exact foldSteps_tamper H hinj _ _ s s' _ hne c

/-- Claim C2, amended: for a valid proof, substituting a commitment with
different bytes, or replacing any path element by one with different bytes
(any bit flip), makes `verify_disclosure` — respectively
`verify_identity_in_registry` — return false, assuming the hash is
collision-free (injective); but `verify_disclosure` never reads
`disclosed_attributes` or `blinded_salt`, so tampering with those leaves its
verdict unchanged. -/
theorem c2_amended_tampering (H : List Nat → List Nat)
    (hinj : Function.Injective H) :
    (∀ (proof : DisclosureProof) (R : String) attrs' bs',
      verify_disclosure H
        { proof with
          disclosed_attributes := attrs',
          blinded_salt := bs' } R = verify_disclosure H proof R) ∧
    (∀ (proof : DisclosureProof) (R c' : String) (b' : List Nat),
      verify_disclosure H proof R = .ok true →
      hexToBytes c' = some b' → hexToBytes proof.commitment ≠ some b' →
      verify_disclosure H { proof with commitment := c' } R = .ok false) ∧
    (∀ (proof : DisclosureProof) (R e' : String) (i : Nat) (se se' : List Nat),
      verify_disclosure H proof R = .ok true →
      i < proof.path_elements.length →
      hexToBytes (proof.path_elements.getD i "") = some se →
      hexToBytes e' = some se' → se' ≠ se →
      verify_disclosure H
        { proof with path_elements := proof.path_elements.set i e' } R
        = .ok false) ∧
    (∀ (st : RegistryState) (root : String) (proof : MembershipProof)
        (e' : String) (i : Nat) (se se' : List Nat),
      verify_identity_in_registry H st root proof = .ok true →
      i < proof.path_elements.length → i < proof.path_positions.length →
      hexToBytes (proof.path_elements.getD i "") = some se →
      hexToBytes e' = some se' → se' ≠ se →
      verify_identity_in_registry H st root
        { proof with path_elements := proof.path_elements.set i e' }
        = .ok false) := by
  refine ⟨?_, ?_, ?_, ?_⟩
  · intro proof R attrs' bs'
    cases proof
    rfl
  · intro proof R c' b' hvalid hc' hcne
    obtain ⟨hm, b, steps, rb, hc, hbp, hr, hfold⟩ :=
      verify_disclosure_ok_true_parts H proof R hvalid
    have heval := verify_disclosure_eval H { proof with commitment := c' } R
      b' steps rb hm hc' hbp hr
    rw [heval]
    have hne2 : foldSteps H b' steps ≠ rb := by
      intro hEq
      have hb'b : b' = b := foldSteps_inj H hinj steps (hEq.trans hfold.symm)
      exact hcne (hb'b ▸ hc)
    simp [hne2]
  · intro proof R e' i se se' hvalid hi hgd he' hne
    obtain ⟨hm, b, steps, rb, hc, hbp, hr, hfold⟩ :=
      verify_disclosure_ok_true_parts H proof R hvalid
    obtain ⟨hlen, hparts⟩ := buildBinaryProof_parts _ _ _ hbp
    obtain ⟨hgd2, hset⟩ := hparts i hi
    have hs : (steps.getD i ([], "")).1 = se := by
      rw [hgd] at hgd2
      exact (Option.some.inj hgd2).symm
    have hbp' := hset e' se' he'
    have heval := verify_disclosure_eval H
      { proof with path_elements := proof.path_elements.set i e' } R b
      (steps.set i (se', (steps.getD i ([], "")).2)) rb hm hc hbp' hr
    rw [heval]
    have histeps : i < steps.length := by rw [hlen]; exact hi
    have hne2 : foldSteps H b (steps.set i (se', (steps.getD i ([], "")).2))
        ≠ rb := by
      rw [← hfold]
      exact foldSteps_set_ne H hinj steps i histeps se se' hs hne b
    rw [decide_eq_false hne2]
  · intro st root proof e' i se se' hvalid hi hip hgd he' hne
    obtain ⟨sa, rb, tree, steps, hsa, hrb, ht, hp, hfold⟩ :=
      verify_registry_ok_true_parts H st root proof hvalid
    have hizip : i < (proof.path_elements.zip proof.path_positions).length := by
      rw [List.length_zip]
      exact lt_min hi hip
    obtain ⟨hlen, hparts⟩ := parseRegSteps_parts _ _ hp
    obtain ⟨hgd2, hpos2, hset⟩ := hparts i hizip
    have hzgd : (proof.path_elements.zip proof.path_positions).getD i ("", "")
        = (proof.path_elements.getD i "", proof.path_positions.getD i "") :=
      zip_getD_str _ _ i hi hip
    have hgd2' : hexToBytes (proof.path_elements.getD i "")
        = some ((steps.getD i ([], "")).1) := by
      rw [hzgd] at hgd2
      simpa using hgd2
    have hs : (steps.getD i ([], "")).1 = se := by
      rw [hgd] at hgd2'
      exact (Option.some.inj hgd2').symm
    have hset' := hset e' se' he'
    have hpos3 : ((proof.path_elements.zip proof.path_positions).getD i ("", "")).2
        = proof.path_positions.getD i "" := by rw [hzgd]
    have hp' : parseRegSteps ((proof.path_elements.set i e').zip proof.path_positions)
        = .ok (steps.set i (se', (steps.getD i ([], "")).2)) := by
      rw [zip_set_left_str _ _ i e' hi hip, ← hpos3]
      exact hset'
    have heval := verify_registry_eval H st root
      { proof with path_elements := proof.path_elements.set i e' } sa rb tree
      (steps.set i (se', (steps.getD i ([], "")).2)) hsa hrb ht hp'
    rw [heval]
    have histeps : i < steps.length := by rw [hlen]; exact hizip
    have hne2 : foldSteps H (H (rb ++ sa))
        (steps.set i (se', (steps.getD i ([], "")).2)) ≠ getRootD tree.tree := by
      rw [← hfold]
      exact foldSteps_set_ne H hinj steps i histeps se se' hs hne _
    rw [decide_eq_false hne2]

/-- Identity as a (trivially injective) stand-in hash for witnesses that
need collision-freeness. -/
def idHash : List Nat → List Nat := fun l => l

theorem idHash_inj : Function.Injective idHash := fun _ _ h => h

def c2P : DisclosureProof := ⟨"0001", [("name", "x")], "00", ["01"], [1], "ff"⟩

def c2RegSt : RegistryState :=
  ⟨[[2, 3], [9]], [], [], some ⟨[[2, 3], [9]], build_tree idHash [[2, 3], [9]]⟩, []⟩

def c2RegProof : MembershipProof := ⟨"03", ["09"], ["right"]⟩

theorem c2_amended_tampering_witness :
    (verify_disclosure idHash
      { c2P with
        disclosed_attributes := [("name", "y")],
        blinded_salt := "aa" } "0001" = verify_disclosure idHash c2P "0001") ∧
    verify_disclosure idHash { c2P with commitment := "02" } "0001" = .ok false ∧
    verify_disclosure idHash
      { c2P with path_elements := c2P.path_elements.set 0 "02" } "0001"
      = .ok false ∧
    verify_identity_in_registry idHash c2RegSt "02"
      { c2RegProof with path_elements := c2RegProof.path_elements.set 0 "08" }
      = .ok false :=
  ⟨(c2_amended_tampering idHash idHash_inj).1 c2P "0001" [("name", "y")] "aa",
   (c2_amended_tampering idHash idHash_inj).2.1 c2P "0001" "02" [2]
     (by decide) (by decide) (by decide),
   (c2_amended_tampering idHash idHash_inj).2.2.1 c2P "0001" "02" 0 [1] [2]
     (by decide) (by decide) (by decide) (by decide) (by decide),
   (c2_amended_tampering idHash idHash_inj).2.2.2 c2RegSt "02" c2RegProof "08" 0
     [9] [8] (by decide) (by decide) (by decide) (by decide) (by decide)
     (by decide)⟩
